import Mathlib

/-!
Verification of the departure-board program `odpt_train_board_pi_lcd.py`.

The Python source is shallowly embedded below.  Python strings are Lean
strings, i.e. sequences of code points, and the Python string
primitives the program uses are modelled structurally over the
underlying `List Char`: `s.split(sep)` for a one-character separator is
`splitOnChar`, `int(s)` is `pyInt` (an optional sign followed by a
nonempty digit run; a failing conversion — a raised `ValueError` — is
`none`), `s.upper()` is `pyUpper` (ASCII case mapping, which is all the
program feeds it), `s[a:b]` is `pySlice` and `s.ljust(w)` is `ljust`.
Python list indexing that can raise `IndexError`, and any other raised
exception, is likewise modelled by `Option`/`Except` with
`none`/`.error` standing for the raised exception.  The ambient
wall-clock value `datetime.now()` read inside `get_future_departures`
is passed in explicitly as a `Now` record (a real clock always
satisfies `hour < 24` and `minute < 60`).
-/

namespace OdptBoard

/-! ### Python string primitives -/

/-- Python `s.split(sep)` for a single-character separator, on the code
points of `s`.  The empty string yields `[[]]`, matching Python. -/
def splitOnChar (sep : Char) : List Char → List (List Char)
  | [] => [[]]
  | c :: cs =>
    let rest := splitOnChar sep cs
    if c = sep then [] :: rest
    else
      match rest with
      | r :: rs => (c :: r) :: rs
      | [] => [[c]]

/-- Value of a decimal digit character, `none` on any other character. -/
def digitVal (c : Char) : Option Nat :=
  if '0' ≤ c ∧ c ≤ '9' then some (c.toNat - '0'.toNat) else none

/-- Value of a nonempty run of decimal digits, `none` when empty or when
any character is not a digit. -/
def digitsVal : List Char → Option Nat
  | [] => none
  | [c] => digitVal c
  | c :: cs =>
    match digitVal c, digitsVal cs with
    | some d, some n => some (d * 10 ^ cs.length + n)
    | _, _ => none

/-- Python `int(s)` on the code points of `s`: an optional sign followed
by a nonempty digit run; `none` models the raised `ValueError`. -/
def pyInt : List Char → Option Int
  | '-' :: rest => (digitsVal rest).map (fun n => -(n : Int))
  | '+' :: rest => (digitsVal rest).map (fun n => (n : Int))
  | cs => (digitsVal cs).map (fun n => (n : Int))

/-- Python `str.upper()` on one ASCII character. -/
def pyUpperChar (c : Char) : Char :=
  if 'a' ≤ c ∧ c ≤ 'z' then Char.ofNat (c.toNat - 32) else c

/-- Python `s.upper()`. -/
def pyUpper (s : String) : String := String.mk (s.data.map pyUpperChar)

/-- Python slice `s[a:b]` for `a ≤ b` (out-of-range bounds clamp, as in
Python). -/
def pySlice (s : String) (a b : Nat) : String :=
  String.mk ((s.data.drop a).take (b - a))

/-- Python `s.ljust(width)`: pad on the right with spaces up to
`width`; a string already at least `width` long is returned unchanged. -/
def ljust (s : String) (width : Nat) : String :=
  s ++ String.mk (List.replicate (width - s.length) ' ')

/-! ### Data model -/

/-- Record built by `get_all_departures` for each train: the raw
`odpt:departureTime` text, the classified train type and the extracted
destination name. -/
structure Departure where
  departureTime : String
  trainType : String
  destinationStation : String
deriving DecidableEq, Repr

/-- The fields of `datetime.now()` that the program reads. -/
structure Now where
  hour : Nat
  minute : Nat
deriving DecidableEq, Repr

/-! ### DepartureScheduler: get_future_departures and trim_departures -/

/-- Read of `departureTime.split(':')` followed by `int` on elements 0
and 1, as performed inside `get_future_departures`; `none` when either
conversion would raise. -/
def parseHM (s : String) : Option (Int × Int) :=
  match splitOnChar ':' s.data with
  | a :: b :: _ =>
    match pyInt a, pyInt b with
    | some h, some m => some (h, m)
    | _, _ => none
  | _ => none

/-- The list `future_hours` built at the top of `get_future_departures`:
`range(now.hour, now.hour + 24)` with a single conditional subtraction
of 24 applied to each element. -/
def future_hours (nowHour : Nat) : List Nat :=
  (List.range 24).map (fun i =>
    let h := nowHour + i
    if h ≥ 24 then h - 24 else h)

/-- One pass of the inner `for departure in departure_list` loop of
`get_future_departures`, at a fixed bucket `hour`: split the time text,
convert element 0 to an integer, keep the departure when its hour equals
the bucket, and inside the current hour additionally convert element 1
and drop departures whose minute is below `now.minute`.  `none` models a
raised `ValueError` or `IndexError`; note that element 1 is only read —
and can only raise — when the bucket is the current hour, mirroring the
short-circuit `and` of the source. -/
def bucket_select (now : Now) (hour : Nat) : List Departure → Option (List Departure)
  | [] => some []
  | d :: rest =>
    let hours_mins := splitOnChar ':' d.departureTime.data
    match pyInt (hours_mins.headD []) with
    | none => none
    | some h0 =>
      if h0 = (hour : Int) then
        if hour = now.hour then
          match hours_mins with
          | _ :: m :: _ =>
            match pyInt m with
            | none => none
            | some m0 =>
              if m0 < (now.minute : Int) then bucket_select now hour rest
              else (bucket_select now hour rest).map (fun r => d :: r)
          | _ => none
        else (bucket_select now hour rest).map (fun r => d :: r)
      else bucket_select now hour rest

/-- The outer `for hour in future_hours` loop of `get_future_departures`:
the per-bucket selections are appended in bucket order. -/
def select_hours (now : Now) (l : List Departure) : List Nat → Option (List Departure)
  | [] => some []
  | h :: hs =>
    match bucket_select now h l with
    | none => none
    | some sel => (select_hours now l hs).map (fun r => sel ++ r)

/-- The function `get_future_departures` of the source, with the clock
passed explicitly. -/
def get_future_departures (now : Now) (departure_list : List Departure) :
    Option (List Departure) :=
  select_hours now departure_list (future_hours now.hour)

/-- Loop body of `trim_departures`: append the next train, return early
as soon as the accumulated result reaches `length` entries. -/
def trim_go (len : Nat) : List Departure → List Departure → List Departure
  | [], results => results
  | t :: rest, results =>
    let results := results ++ [t]
    if results.length = len then results else trim_go len rest results

/-- The function `trim_departures` of the source. -/
def trim_departures (departure_list : List Departure) (len : Nat) : List Departure :=
  trim_go len departure_list []

/-! ### DisplayFormatter -/

/-- The function `get_printable_departures` of the source. -/
def get_printable_departures (departure_list : List Departure) : List String :=
  departure_list.map (fun departure =>
    let train_time := departure.departureTime
    let train_dest := pyUpper departure.destinationStation
    let train_type :=
      if departure.trainType = "Express" then "EXP"
      else if departure.trainType = "Local" then "Loc"
      else departure.trainType
    s!"{train_type} {train_time} {train_dest}")

/-- The function `get_scrollable_destinations` of the source. -/
def get_scrollable_destinations (departure_list : List Departure) : List String :=
  departure_list.map (fun departure => pyUpper departure.destinationStation)

/-! ### FrameAnimator: frame precomputation of scroll_area and page_area -/

/-- Frames precomputed by `scroll_area` for one row of `data`: a single
frame for a row no longer than the window, otherwise the slices
`row[(0+index):(width+index)]` for `index` in
`range(0, overflow_chars + 1)`. -/
def scroll_row_frames (width : Nat) (row : String) : List String :=
  if row.length ≤ width then [row]
  else
    let overflow_chars := row.length - width
    (List.range (overflow_chars + 1)).map (fun index =>
      pySlice row (0 + index) (width + index))

/-- The whole `frames` list precomputed by `scroll_area`, one entry per
row of `data`. -/
def scroll_area_frames (width : Nat) (data : List String) : List (List String) :=
  data.map (scroll_row_frames width)

/-- Frames precomputed by `page_area` for one row of `data`: a single
frame for a row no longer than the window, otherwise
`math.ceil(len(row) / width)` frames — written here as the exact
ceiling division `(len + width - 1) / width` — each the slice from
`index * width` of at most `width` characters, left-justified with
spaces to `width`. -/
def page_row_frames (width : Nat) (row : String) : List String :=
  if row.length ≤ width then [row]
  else
    let pages_required := (row.length + width - 1) / width
    (List.range pages_required).map (fun index =>
      let frame_start := index * width
      let frame_end := frame_start + width
      let frame_end2 := if frame_end > row.length then row.length else frame_end
      ljust (pySlice row frame_start frame_end2) width)

/-- The whole `frames` list precomputed by `page_area`, one entry per
row of `data`. -/
def page_area_frames (width : Nat) (data : List String) : List (List String) :=
  data.map (page_row_frames width)

/-- Index actually read on one tick for a row whose frame list has `n`
entries and whose cursor holds `pos`: the cursor is first reset to 0
when it has reached `n`, then used.  This is the
`if current_positions[i] >= len(row_frames): current_positions[i] = 0`
guard followed by the read in both animation loops. -/
def anim_index (n pos : Nat) : Nat := if pos ≥ n then 0 else pos

/-- Cursor values after one tick of the animation loop: each row reads
at `anim_index` and then increments its own cursor. -/
def anim_step (counts positions : List Nat) : List Nat :=
  List.zipWith (fun n pos => anim_index n pos + 1) counts positions

/-- Cursor values held in `current_positions` at the start of tick `t`
(0-indexed) of the animation loop, for rows whose frame-list lengths are
`counts`; all cursors start at 0. -/
def anim_positions (counts : List Nat) : Nat → List Nat
  | 0 => counts.map (fun _ => 0)
  | t + 1 => anim_step counts (anim_positions counts t)

/-- Indices read on a tick that starts from cursor values `positions`. -/
def anim_indices (counts positions : List Nat) : List Nat :=
  List.zipWith anim_index counts positions

/-- Scalar projection of the animation loop onto one row with `n`
frames: the cursor value at the start of tick `t`. -/
def row_pos (n : Nat) : Nat → Nat
  | 0 => 0
  | t + 1 => anim_index n (row_pos n t) + 1

/-! ### TimetableExtractor and the fetch path of get_departures -/

/-- One raw train record of the timetable, with the three keys the
program reads: `odpt:departureTime`, `odpt:trainType` and
`odpt:destinationStation` (a list of station identifiers). -/
structure RawTrain where
  departureTime : String
  trainType : String
  destinationStation : List String
deriving DecidableEq, Repr

/-- One element of the decoded response body; the program only asks
whether the key `odpt:stationTimetableObject` is present and, if so,
for its list of raw trains. -/
structure PayloadItem where
  stationTimetableObject : Option (List RawTrain)
deriving DecidableEq, Repr

/-- The function `get_stationTimetable` of the source: the value under
the first element carrying the timetable key, or an empty list. -/
def get_stationTimetable (response_json : List PayloadItem) : List RawTrain :=
  match response_json.find? (fun item => item.stationTimetableObject.isSome) with
  | some item => item.stationTimetableObject.getD []
  | none => []

/-- Python list/string prefix test used to define substring search. -/
def startsWithSeg : List Char → List Char → Bool
  | [], _ => true
  | _ :: _, [] => false
  | a :: as, b :: bs => a = b && startsWithSeg as bs

/-- Python substring test `needle in hay`. -/
def hasSeg (needle : List Char) : List Char → Bool
  | [] => startsWithSeg needle []
  | c :: cs => startsWithSeg needle (c :: cs) || hasSeg needle cs

/-- The function `get_all_departures` of the source.  The train type is
classified by substring containment (`Local` first, then `Express`,
else the raw value); the destination is the last element of the raw
destination list — reading it from an empty list raises `IndexError`,
the `none` case — split on `.` keeping the final segment. -/
def get_all_departures : List RawTrain → Option (List Departure)
  | [] => some []
  | train :: rest =>
    let trainType :=
      if hasSeg "Local".data train.trainType.data then "Local"
      else if hasSeg "Express".data train.trainType.data then "Express"
      else train.trainType
    match train.destinationStation.getLast? with
    | none => none
    | some lastDest =>
      let destinationStation := String.mk ((splitOnChar '.' lastDest.data).getLastD [])
      (get_all_departures rest).map (fun r =>
        ⟨train.departureTime, trainType, destinationStation⟩ :: r)

/-- Outcome of the `requests.get` call inside `get_departures`, as the
program can observe it: one of the four caught exception classes, or a
response carrying its truthiness (status below 400) and the result of
decoding its body as JSON (`none` when `response.json()` would raise). -/
inductive FetchOutcome where
  | httpError
  | connectionError
  | timeoutError
  | requestError
  | response (ok : Bool) (body : Option (List PayloadItem))
deriving DecidableEq, Repr

/-- The function `get_departures` of the source, over an abstract fetch
outcome and an explicit clock.  The first component is the message
printed when an error branch is taken (`none` on the non-error path;
the status code interpolated into the bad-status message is elided).
The second component is the returned value, with `.error` standing for
an exception that propagates out of `get_departures` uncaught. -/
def get_departures (outcome : FetchOutcome) (now : Now) :
    Option String × Except Unit (List Departure) :=
  match outcome with
  | .httpError => (some "An Http Error occurred", .ok [])
  | .connectionError => (some "An Error Connecting to the ODPT API occurred", .ok [])
  | .timeoutError => (some "A Timeout Error occurred", .ok [])
  | .requestError => (some "An Unknown Error occurred", .ok [])
  | .response ok body =>
    if ok then
      match body with
      | none => (none, .error ())
      | some response_json =>
        let stationTimetable := get_stationTimetable response_json
        match get_all_departures stationTimetable with
        | none => (none, .error ())
        | some all_departures =>
          match get_future_departures now all_departures with
          | none => (none, .error ())
          | some future_departures => (none, .ok future_departures)
    else (some "[Response - ERROR / BAD TOKEN OR QUERY]", .ok [])

/-! ### Concrete sample data used by witnesses and counterexamples -/

/-- Local train leaving 08:10 for Shibuya. -/
def depLocal : Departure := ⟨"08:10", "Local", "Shibuya"⟩

/-- Express train leaving 08:05 for Shibuya. -/
def depExpress : Departure := ⟨"08:05", "Express", "Shibuya"⟩

/-- Departure whose written hour exceeds 23. -/
def depLate : Departure := ⟨"25:30", "Local", "Nagatsuta"⟩

/-! ### Lemmas about trim_departures -/

/-- While the accumulator is still short of the limit, `trim_go`
appends exactly the missing prefix of the remaining list. -/
theorem trim_go_of_lt : ∀ (l acc : List Departure) (n : Nat),
    acc.length < n → trim_go n l acc = acc ++ l.take (n - acc.length)
  | [], acc, n, _ => by simp [trim_go]
  | t :: rest, acc, n, h => by
    simp only [trim_go]
    by_cases he : (acc ++ [t]).length = n
    · rw [if_pos he]
      have h1 : n - acc.length = 1 := by simp at he; omega
      rw [h1]
      simp
    · rw [if_neg he]
      have h2 : (acc ++ [t]).length < n := by simp at he ⊢; omega
      rw [trim_go_of_lt rest (acc ++ [t]) n h2]
      have h3 : n - acc.length = (n - (acc ++ [t]).length) + 1 := by simp; omega
      rw [h3, List.take_succ_cons, List.append_assoc, List.singleton_append]

/-- Once the accumulator has reached (or passed) the limit without the
early return having fired, `trim_go` appends the whole remaining list. -/
theorem trim_go_of_ge : ∀ (l acc : List Departure) (n : Nat),
    n ≤ acc.length → trim_go n l acc = acc ++ l
  | [], acc, n, _ => by simp [trim_go]
  | t :: rest, acc, n, h => by
    simp only [trim_go]
    have he : ¬((acc ++ [t]).length = n) := by simp; omega
    rw [if_neg he, trim_go_of_ge rest (acc ++ [t]) n (by simp; omega),
      List.append_assoc, List.singleton_append]

/-- C9 (corrected): for every limit of at least 1, `trim_departures`
returns exactly the first `min(len(input), limit)` entries of its input
unchanged and in order; a limit of 0 returns the whole input (the early
return never fires); and trimming a list already no longer than the
limit is the identity. -/
theorem trim_departures_spec :
    (∀ (l : List Departure) (n : Nat), 1 ≤ n → trim_departures l n = l.take n) ∧
    (∀ l : List Departure, trim_departures l 0 = l) ∧
    (∀ (l : List Departure) (n : Nat), l.length ≤ n → trim_departures l n = l) := by
  refine ⟨fun l n hn => ?_, fun l => ?_, fun l n hln => ?_⟩
  · rw [trim_departures, trim_go_of_lt l [] n (by simpa using hn)]
    simp
  · rw [trim_departures, trim_go_of_ge l [] 0 (by simp)]
    simp
  · rcases Nat.eq_zero_or_pos n with h0 | hpos
    · subst h0
      have : l = [] := List.eq_nil_of_length_eq_zero (Nat.le_zero.mp hln)
      subst this
      rfl
    · rw [trim_departures, trim_go_of_lt l [] n (by simpa using hpos)]
      simp [List.take_of_length_le hln]

/-- Witness for C9 at a concrete input: limit 1 on a two-element list
takes exactly the first entry. -/
theorem trim_departures_spec_witness :
    1 ≤ 1 ∧ trim_departures [depLocal, depExpress] 1 = [depLocal, depExpress].take 1 :=
  ⟨by decide, trim_departures_spec.1 [depLocal, depExpress] 1 (by decide)⟩

/-- Counterexample to C9 as stated: with limit 0 the early return never
fires, so the whole one-element input comes back instead of the claimed
first `min(1, 0) = 0` entries. -/
theorem trim_departures_limit_zero_counterexample :
    trim_departures [depLocal] 0 = [depLocal] ∧
    List.take (min ([depLocal].length) 0) [depLocal] = [] := by
  decide

/-! ### Theorems about get_departures -/

/-- C4 (amended): `get_departures` converts a connection failure, a
timeout, an HTTP error, any other request-level exception and a
non-success status into an empty result — each with its own
distinguishable message — but a response body that fails JSON decoding
is not converted: the exception propagates out uncaught. -/
theorem get_departures_transport_errors :
    (∀ now, get_departures .httpError now = (some "An Http Error occurred", .ok [])) ∧
    (∀ now, get_departures .connectionError now =
      (some "An Error Connecting to the ODPT API occurred", .ok [])) ∧
    (∀ now, get_departures .timeoutError now = (some "A Timeout Error occurred", .ok [])) ∧
    (∀ now, get_departures .requestError now = (some "An Unknown Error occurred", .ok [])) ∧
    (∀ now body, get_departures (.response false body) now =
      (some "[Response - ERROR / BAD TOKEN OR QUERY]", .ok [])) ∧
    List.Pairwise (fun a b => a ≠ b)
      ["An Http Error occurred", "An Error Connecting to the ODPT API occurred",
       "A Timeout Error occurred", "An Unknown Error occurred",
       "[Response - ERROR / BAD TOKEN OR QUERY]"] ∧
    (∀ now, (get_departures (.response true none) now).2 = .error ()) :=
  ⟨fun _ => rfl, fun _ => rfl, fun _ => rfl, fun _ => rfl, fun _ _ => rfl,
    by decide, fun _ => rfl⟩

/-- Counterexample to C4 as stated: a successful status whose body
fails to decode makes `get_departures` propagate the exception (no
message, `.error`) instead of returning an empty list. -/
theorem get_departures_malformed_body_counterexample :
    get_departures (.response true none) ⟨8, 7⟩ = (none, .error ()) := rfl

/-! ### DisplayFormatter theorems -/

/-- Line layout stated by the spec: short train type, a space, the raw
time text, a space, the upper-cased destination — nothing truncated. -/
def formatLine (d : Departure) : String :=
  (if d.trainType = "Express" then "EXP"
   else if d.trainType = "Local" then "Loc"
   else d.trainType) ++ " " ++ d.departureTime ++ " " ++ pyUpper d.destinationStation

/-- C8: `get_printable_departures` renders every departure as
`<ShortType> <HH:MM> <DESTINATION>` with `Express` shortened to `EXP`,
`Local` to `Loc`, any other type passed through verbatim and the
destination upper-cased, with no truncation; and on the concrete
payload with a Local 08:10 and an Express 08:05 for Shibuya at current
time 08:07, the scheduler keeps only the 08:10 Local departure, whose
formatted line is `Loc 08:10 SHIBUYA`. -/
theorem printable_departures_format :
    (∀ l : List Departure, get_printable_departures l = l.map formatLine) ∧
    (get_future_departures ⟨8, 7⟩ [depLocal, depExpress] = some [depLocal] ∧
     get_printable_departures [depLocal] = ["Loc 08:10 SHIBUYA"]) := by
  refine ⟨fun l => ?_, by decide, by decide⟩
  unfold get_printable_departures formatLine
  apply List.map_congr_left
  intro d _
  simp [toString]

/-! ### DepartureScheduler theorems -/

/-- Selection predicate applied by `get_future_departures` at bucket
`hour`, restated declaratively over the parsed time: the parsed hour
equals the bucket, and not (the bucket is the current hour and the
parsed minute is strictly below the current minute). -/
def keepAt (now : Now) (hour : Nat) (d : Departure) : Bool :=
  match parseHM d.departureTime with
  | some (hh, mm) =>
    hh == (hour : Int) && !((hour == now.hour) && decide (mm < (now.minute : Int)))
  | none => false

/-- A parseable time text splits into a first and second component that
each convert to an integer. -/
theorem parseHM_decomp {s : String} {hh mm : Int} (h : parseHM s = some (hh, mm)) :
    ∃ a b t, splitOnChar ':' s.data = a :: b :: t ∧ pyInt a = some hh ∧ pyInt b = some mm := by
  unfold parseHM at h
  split at h
  · rename_i a b t heq
    split at h
    · rename_i hv mv hpa hpb
      obtain ⟨rfl, rfl⟩ : hv = hh ∧ mv = mm := by
        have := Option.some.inj h
        exact ⟨congrArg Prod.fst this, congrArg Prod.snd this⟩
      exact ⟨a, b, t, heq, hpa, hpb⟩
    · exact Option.noConfusion h
  · exact Option.noConfusion h

/-- On a list whose time texts all parse, one bucket pass returns
exactly the stable filter by `keepAt`. -/
theorem bucket_select_eq_filter (now : Now) (hour : Nat) :
    ∀ l : List Departure, (∀ d ∈ l, (parseHM d.departureTime).isSome) →
      bucket_select now hour l = some (l.filter (keepAt now hour))
  | [], _ => rfl
  | d :: rest, hp => by
    have hd : (parseHM d.departureTime).isSome := hp d (List.mem_cons_self d rest)
    obtain ⟨⟨hh, mm⟩, hparse⟩ := Option.isSome_iff_exists.mp hd
    obtain ⟨a, b, t, hs, hpa, hpb⟩ := parseHM_decomp hparse
    have hrest : ∀ x ∈ rest, (parseHM x.departureTime).isSome :=
      fun x hx => hp x (List.mem_cons_of_mem _ hx)
    have ih := bucket_select_eq_filter now hour rest hrest
    have hk : keepAt now hour d =
        (hh == (hour : Int) && !((hour == now.hour) && decide (mm < (now.minute : Int)))) := by
      rw [keepAt, hparse]
    simp only [bucket_select, hs, List.headD_cons, hpa, List.filter_cons, hk]
    by_cases h1 : hh = (hour : Int)
    · by_cases h2 : hour = now.hour
      · by_cases h3 : mm < (now.minute : Int)
        · simp [h1, h2, h3, hpb]
          exact h2 ▸ ih
        · simp [h1, h2, h3, hpb]
          exact h2 ▸ ih
      · simp [h1, h2, ih]
    · simp [h1, ih]

/-- The outer loop over any list of bucket hours concatenates the
per-bucket stable filters, in bucket order. -/
theorem select_hours_eq (now : Now) (l : List Departure)
    (hp : ∀ d ∈ l, (parseHM d.departureTime).isSome) :
    ∀ hs : List Nat, select_hours now l hs =
      some ((hs.map (fun h => l.filter (keepAt now h))).flatten)
  | [] => rfl
  | h :: t => by
    simp only [select_hours, bucket_select_eq_filter now h l hp,
      select_hours_eq now l hp t, Option.map_some', List.map_cons, List.flatten_cons]

/-- With a real clock hour, the generated bucket list is
`(now.hour + i) % 24` for `i = 0, …, 23`: the single conditional
subtraction of the source is exactly reduction modulo 24 here. -/
theorem future_hours_eq_mod {nowHour : Nat} (h : nowHour < 24) :
    future_hours nowHour = (List.range 24).map (fun i => (nowHour + i) % 24) := by
  unfold future_hours
  apply List.map_congr_left
  intro i hi
  have hi24 : i < 24 := List.mem_range.mp hi
  show (if nowHour + i ≥ 24 then nowHour + i - 24 else nowHour + i) = (nowHour + i) % 24
  split <;> omega

/-- Every generated bucket hour is in range. -/
theorem future_hours_lt {nowHour : Nat} (hn : nowHour < 24) :
    ∀ h ∈ future_hours nowHour, h < 24 := by
  intro h hm
  unfold future_hours at hm
  simp only [List.mem_map, List.mem_range] at hm
  obtain ⟨i, hi, hih⟩ := hm
  split at hih <;> omega

/-- With a real clock hour, each hour 0–23 appears exactly once among
the generated buckets. -/
theorem future_hours_count {nowHour : Nat} (hn : nowHour < 24) :
    ∀ k, k < 24 → (future_hours nowHour).count k = 1 := by
  intro k hk
  rw [future_hours_eq_mod hn]
  have hnodup : ((List.range 24).map (fun i => (nowHour + i) % 24)).Nodup := by
    apply List.Nodup.map_on _ (List.nodup_range 24)
    intro x hx y hy hxy
    have hx24 : x < 24 := List.mem_range.mp hx
    have hy24 : y < 24 := List.mem_range.mp hy
    omega
  have hmem : k ∈ (List.range 24).map (fun i => (nowHour + i) % 24) := by
    simp only [List.mem_map, List.mem_range]
    exact ⟨(24 + k - nowHour) % 24, by omega, by omega⟩
  exact List.count_eq_one_of_mem hnodup hmem

/-- C1: on a departure list whose time texts all parse and for a real
clock, `get_future_departures` returns exactly the concatenation, over
hour distance `i = 0, …, 23` from the current hour, of the stable
filters of the input list at bucket `(now.hour + i) % 24` — i.e. the
departures with parsed hour in 0–23, minus same-current-hour entries
with minute below the current minute, ordered by hour distance
ascending and in original input order within each hour bucket. -/
theorem get_future_departures_ordered_spec (now : Now) (l : List Departure)
    (hnow : now.hour < 24)
    (hp : ∀ d ∈ l, (parseHM d.departureTime).isSome) :
    get_future_departures now l =
      some (((List.range 24).map
        (fun i => l.filter (keepAt now ((now.hour + i) % 24)))).flatten) := by
  unfold get_future_departures
  rw [select_hours_eq now l hp, future_hours_eq_mod hnow, List.map_map]
  rfl

/-- Witness for C1 on the concrete 08:07 scenario list. -/
theorem get_future_departures_ordered_spec_witness :
    ((⟨8, 7⟩ : Now).hour < 24 ∧
      (∀ d ∈ [depLocal, depExpress], (parseHM d.departureTime).isSome)) ∧
    get_future_departures ⟨8, 7⟩ [depLocal, depExpress] =
      some (((List.range 24).map
        (fun i => [depLocal, depExpress].filter (keepAt ⟨8, 7⟩ (((⟨8, 7⟩ : Now).hour + i) % 24)))).flatten) :=
  ⟨⟨by decide, by decide⟩,
    get_future_departures_ordered_spec ⟨8, 7⟩ [depLocal, depExpress] (by decide) (by decide)⟩

/-- Every member of a successful bucket pass comes from the input and
has a first time component converting exactly to the bucket hour. -/
theorem bucket_select_mem (now : Now) (hour : Nat) :
    ∀ (l sel : List Departure), bucket_select now hour l = some sel →
      ∀ d ∈ sel, d ∈ l ∧
        pyInt ((splitOnChar ':' d.departureTime.data).headD []) = some (hour : Int)
  | [], sel, hsel, d, hd => by
    simp only [bucket_select] at hsel
    cases hsel
    simp at hd
  | dd :: rest, sel, hsel, d, hd => by
    simp only [bucket_select] at hsel
    split at hsel
    · exact Option.noConfusion hsel
    · rename_i h0 hpa
      split at hsel
      · rename_i h1
        split at hsel
        · rename_i h2
          split at hsel
          · rename_i m t2 heq2
            split at hsel
            · exact Option.noConfusion hsel
            · rename_i m0 hpb
              split at hsel
              · obtain ⟨hmem, hp⟩ := bucket_select_mem now hour rest sel hsel d hd
                exact ⟨List.mem_cons_of_mem _ hmem, hp⟩
              · cases hb : bucket_select now hour rest with
                | none => rw [hb] at hsel; exact Option.noConfusion hsel
                | some sel2 =>
                  rw [hb, Option.map_some'] at hsel
                  cases hsel
                  rcases List.mem_cons.mp hd with rfl | hmem
                  · exact ⟨List.mem_cons_self d rest, by rw [hpa, h1]⟩
                  · obtain ⟨hm2, hp⟩ := bucket_select_mem now hour rest sel2 hb d hmem
                    exact ⟨List.mem_cons_of_mem _ hm2, hp⟩
          · exact Option.noConfusion hsel
        · cases hb : bucket_select now hour rest with
          | none => rw [hb] at hsel; exact Option.noConfusion hsel
          | some sel2 =>
            rw [hb, Option.map_some'] at hsel
            cases hsel
            rcases List.mem_cons.mp hd with rfl | hmem
            · exact ⟨List.mem_cons_self d rest, by rw [hpa, h1]⟩
            · obtain ⟨hm2, hp⟩ := bucket_select_mem now hour rest sel2 hb d hmem
              exact ⟨List.mem_cons_of_mem _ hm2, hp⟩
      · obtain ⟨hmem, hp⟩ := bucket_select_mem now hour rest sel hsel d hd
        exact ⟨List.mem_cons_of_mem _ hmem, hp⟩

/-- Every member of a successful full pass comes from the input and
matched one of the bucket hours. -/
theorem select_hours_mem (now : Now) (l : List Departure) :
    ∀ (hs : List Nat) (res : List Departure), select_hours now l hs = some res →
      ∀ d ∈ res, d ∈ l ∧ ∃ h, h ∈ hs ∧
        pyInt ((splitOnChar ':' d.departureTime.data).headD []) = some (h : Int)
  | [], res, hres, d, hd => by
    simp only [select_hours] at hres
    cases hres
    simp at hd
  | h :: t, res, hres, d, hd => by
    simp only [select_hours] at hres
    split at hres
    · exact Option.noConfusion hres
    · rename_i sel hbs
      cases hrec : select_hours now l t with
      | none => rw [hrec] at hres; exact Option.noConfusion hres
      | some res2 =>
        rw [hrec, Option.map_some'] at hres
        cases hres
        rcases List.mem_append.mp hd with hmem | hmem
        · obtain ⟨hml, hp⟩ := bucket_select_mem now h l sel hbs d hmem
          exact ⟨hml, h, List.mem_cons_self h t, hp⟩
        · obtain ⟨hml, hh, hmemh, hp⟩ := select_hours_mem now l t res2 hrec d hmem
          exact ⟨hml, hh, List.mem_cons_of_mem _ hmemh, hp⟩

/-- C7: with a real clock, the 24 generated buckets are exactly the
hours 0–23, each appearing once; every departure that
`get_future_departures` returns has a parsed hour in 0–23; hence a
departure whose parsed hour lies outside 0–23 is never selected. -/
theorem hour_buckets_cover_and_drop (now : Now) (l res : List Departure)
    (hnow : now.hour < 24) (hres : get_future_departures now l = some res) :
    (∀ k, k < 24 → (future_hours now.hour).count k = 1) ∧
    (∀ d ∈ res, ∃ hh : Int,
      pyInt ((splitOnChar ':' d.departureTime.data).headD []) = some hh ∧
      0 ≤ hh ∧ hh < 24) ∧
    (∀ d, ∀ hh mm : Int, parseHM d.departureTime = some (hh, mm) →
      (hh < 0 ∨ 24 ≤ hh) → d ∉ res) := by
  refine ⟨future_hours_count hnow, fun d hd => ?_, fun d hh mm hparse hrange hdres => ?_⟩
  · obtain ⟨_, h, hmem, hp⟩ := select_hours_mem now l _ res hres d hd
    have hlt : h < 24 := future_hours_lt hnow h hmem
    exact ⟨(h : Int), hp, Int.ofNat_nonneg h, by exact_mod_cast hlt⟩
  · obtain ⟨_, h, hmem, hp⟩ := select_hours_mem now l _ res hres d hdres
    obtain ⟨a, b, t, hs, hpa, hpb⟩ := parseHM_decomp hparse
    rw [hs, List.headD_cons, hpa] at hp
    have hhh : hh = (h : Int) := Option.some.inj hp
    have h24 : h < 24 := future_hours_lt hnow h hmem
    omega

/-- Witness for C7: at 08:07 with one past, one future and one
out-of-range departure, the scheduler returns only the 08:10 Local. -/
theorem hour_buckets_cover_and_drop_witness :
    ((⟨8, 7⟩ : Now).hour < 24 ∧
      get_future_departures ⟨8, 7⟩ [depLocal, depExpress, depLate] = some [depLocal]) ∧
    ((∀ k, k < 24 → (future_hours (⟨8, 7⟩ : Now).hour).count k = 1) ∧
    (∀ d ∈ [depLocal], ∃ hh : Int,
      pyInt ((splitOnChar ':' d.departureTime.data).headD []) = some hh ∧
      0 ≤ hh ∧ hh < 24) ∧
    (∀ d, ∀ hh mm : Int, parseHM d.departureTime = some (hh, mm) →
      (hh < 0 ∨ 24 ≤ hh) → d ∉ [depLocal])) :=
  ⟨⟨by decide, by decide⟩,
    hour_buckets_cover_and_drop ⟨8, 7⟩ [depLocal, depExpress, depLate] [depLocal]
      (by decide) (by decide)⟩

/-- C6 (corrected): the modulo normalization applies to the generated
bucket hours, not to departure hours: a departure whose written hour is
24 + k is not treated as departing at hour k — it matches no bucket and
is never selected. -/
theorem bucket_hours_normalized_not_departures (now : Now) (l res : List Departure)
    (d : Departure) (hh mm : Int) (hnow : now.hour < 24)
    (hres : get_future_departures now l = some res)
    (hparse : parseHM d.departureTime = some (hh, mm)) (hge : 24 ≤ hh) :
    future_hours now.hour = (List.range 24).map (fun i => (now.hour + i) % 24) ∧
    d ∉ res := by
  refine ⟨future_hours_eq_mod hnow, fun hdres => ?_⟩
  obtain ⟨_, h, hmem, hp⟩ := select_hours_mem now l _ res hres d hdres
  obtain ⟨a, b, t, hs, hpa, hpb⟩ := parseHM_decomp hparse
  rw [hs, List.headD_cons, hpa] at hp
  have hhh : hh = (h : Int) := Option.some.inj hp
  have h24 : h < 24 := future_hours_lt hnow h hmem
  omega

/-- Witness for C6 (corrected) at hour text 25:30 and current time
01:00. -/
theorem bucket_hours_normalized_not_departures_witness :
    ((⟨1, 0⟩ : Now).hour < 24 ∧
      get_future_departures ⟨1, 0⟩ [depLate] = some [] ∧
      parseHM depLate.departureTime = some (25, 30)) ∧
    (future_hours (⟨1, 0⟩ : Now).hour = (List.range 24).map (fun i => ((⟨1, 0⟩ : Now).hour + i) % 24) ∧
      depLate ∉ ([] : List Departure)) :=
  ⟨⟨by decide, by decide, by decide⟩,
    bucket_hours_normalized_not_departures ⟨1, 0⟩ [depLate] [] depLate 25 30
      (by decide) (by decide) (by decide) (by decide)⟩

/-- Counterexample to C6 as stated: 25 modulo 24 is the current hour 1
and the minute 30 is not below the current minute 0, so a normalized
comparison would select the 25:30 departure — yet the program returns
the empty list, dropping it. -/
theorem hour_normalization_counterexample :
    get_future_departures ⟨1, 0⟩ [depLate] = some [] ∧
    parseHM depLate.departureTime = some (25, 30) ∧
    (25 : Nat) % 24 = (⟨1, 0⟩ : Now).hour ∧
    keepAt ⟨1, 0⟩ ((25 : Nat) % 24) depLate = false := by
  decide

/-! ### String groundwork for the frame theorems -/

/-- Code points of a packed list. -/
theorem data_mk (l : List Char) : (String.mk l).data = l := rfl

/-- String length is the length of its code-point list. -/
theorem length_eq_data_length (s : String) : s.length = s.data.length := rfl

/-- Strings with the same code points are equal. -/
theorem str_eq_of_data {a b : String} (h : a.data = b.data) : a = b := by
  cases a
  cases b
  cases h
  rfl

/-- Code points of a Python slice. -/
theorem data_pySlice (s : String) (a b : Nat) :
    (pySlice s a b).data = (s.data.drop a).take (b - a) := rfl

/-- Length of a Python slice. -/
theorem length_pySlice (s : String) (a b : Nat) :
    (pySlice s a b).length = min (b - a) (s.data.length - a) := by
  rw [length_eq_data_length, data_pySlice, List.length_take, List.length_drop]

/-- Code points of a left-justification. -/
theorem data_ljust (s : String) (w : Nat) :
    (ljust s w).data = s.data ++ List.replicate (w - s.length) ' ' := by
  rw [ljust, String.data_append, data_mk]

/-- Length of a left-justification. -/
theorem length_ljust (s : String) (w : Nat) :
    (ljust s w).length = s.length + (w - s.length) := by
  rw [length_eq_data_length, data_ljust, List.length_append, List.length_replicate,
    ← length_eq_data_length]

/-- Folding append over strings concatenates the code points. -/
theorem foldl_append_data : ∀ (l : List String) (s : String),
    (l.foldl (fun r t => r ++ t) s).data = s.data ++ (l.map String.data).flatten
  | [], s => by simp
  | a :: as, s => by
    simp [foldl_append_data as (s ++ a), String.data_append, List.append_assoc]

/-- Code points of a string join. -/
theorem join_data (l : List String) : (String.join l).data = (l.map String.data).flatten :=
  foldl_append_data l ""

/-- Element `i` of a map over an initial segment. -/
theorem getD_map_range {α : Type} (f : Nat → α) {i n : Nat} (h : i < n) (d : α) :
    ((List.range n).map f).getD i d = f i := by
  rw [List.getD_eq_getElem?_getD, List.getElem?_map]
  simp [List.getElem?_range, h]

/-! ### scroll_area frame lemmas -/

/-- Closed form of the scroll frames of an overflowing row. -/
theorem scroll_row_frames_eq {w : Nat} {row : String} (hL : w < row.length) :
    scroll_row_frames w row =
      (List.range (row.length - w + 1)).map (fun i => pySlice row i (i + w)) := by
  rw [scroll_row_frames, if_neg (by omega)]
  apply List.map_congr_left
  intro i _
  show pySlice row (0 + i) (w + i) = pySlice row i (i + w)
  rw [Nat.zero_add, Nat.add_comm w i]

/-- A row that fits the window has its single unscrolled frame. -/
theorem scroll_row_frames_short {w : Nat} {row : String} (h : row.length ≤ w) :
    scroll_row_frames w row = [row] := by
  rw [scroll_row_frames, if_pos h]

/-- Every scroll frame of an overflowing row is exactly window sized. -/
theorem scroll_frame_length {w : Nat} {row : String} (hL : w < row.length) :
    ∀ f ∈ scroll_row_frames w row, f.length = w := by
  rw [scroll_row_frames_eq hL]
  intro f hf
  obtain ⟨i, hi, rfl⟩ := List.mem_map.mp hf
  have hi2 : i < row.length - w + 1 := List.mem_range.mp hi
  rw [length_pySlice, ← length_eq_data_length]
  omega

/-- C3: for an overflowing row, `scroll_area` precomputes exactly
`L - W + 1` frames, frame `i` being the slice `[i, i+W)` of length
exactly `W`, and each frame past the first starts with the tail of its
predecessor (the window slides by one character); a row that fits
yields exactly one frame equal to the row. -/
theorem scroll_area_frames_spec (row : String) (w : Nat) :
    (w < row.length →
      (scroll_row_frames w row).length = row.length - w + 1 ∧
      scroll_row_frames w row =
        (List.range (row.length - w + 1)).map (fun i => pySlice row i (i + w)) ∧
      (∀ f ∈ scroll_row_frames w row, f.length = w) ∧
      (∀ i, i + 1 < row.length - w + 1 →
        ((scroll_row_frames w row).getD (i + 1) "").data.take (w - 1) =
          ((scroll_row_frames w row).getD i "").data.drop 1)) ∧
    (row.length ≤ w → scroll_row_frames w row = [row]) := by
  refine ⟨fun hL => ⟨?_, scroll_row_frames_eq hL, scroll_frame_length hL, fun i hi => ?_⟩,
    scroll_row_frames_short⟩
  · rw [scroll_row_frames_eq hL, List.length_map, List.length_range]
  · rw [scroll_row_frames_eq hL,
      getD_map_range (fun j => pySlice row j (j + w)) hi "",
      getD_map_range (fun j => pySlice row j (j + w))
        (show i < row.length - w + 1 by omega) ""]
    rw [data_pySlice, data_pySlice, Nat.add_sub_cancel_left, Nat.add_sub_cancel_left]
    rw [List.take_take, Nat.min_eq_left (by omega), List.drop_take, List.drop_drop]

/-- Witness for C3 on the spec scenario: destination `Shibuya`,
window width 4. -/
theorem scroll_area_frames_spec_witness :
    (4 < ("Shibuya" : String).length ∧
      scroll_row_frames 4 "Shibuya" = ["Shib", "hibu", "ibuy", "buya"]) ∧
    scroll_row_frames 4 "Shibuya" =
      (List.range (("Shibuya" : String).length - 4 + 1)).map
        (fun i => pySlice "Shibuya" i (i + 4)) :=
  ⟨⟨by decide, by decide⟩, ((scroll_area_frames_spec "Shibuya" 4).1 (by decide)).2.1⟩

/-! ### page_area frame lemmas -/

/-- A row that fits the window has its single unpadded frame. -/
theorem page_row_frames_short {w : Nat} {row : String} (h : row.length ≤ w) :
    page_row_frames w row = [row] := by
  rw [page_row_frames, if_pos h]

/-- Closed form of the page frames of an overflowing row: the inner
conditional clamp is exactly `min ((i+1)·w) L`. -/
theorem page_row_frames_eq {w : Nat} {row : String} (hL : w < row.length) :
    page_row_frames w row =
      (List.range ((row.length + w - 1) / w)).map (fun i =>
        ljust (pySlice row (i * w) (min ((i + 1) * w) row.length)) w) := by
  rw [page_row_frames, if_neg (by omega)]
  apply List.map_congr_left
  intro i _
  show ljust (pySlice row (i * w)
      (if i * w + w > row.length then row.length else i * w + w)) w =
    ljust (pySlice row (i * w) (min ((i + 1) * w) row.length)) w
  have hsucc : (i + 1) * w = i * w + w := by ring
  rw [hsucc, Nat.min_def]
  by_cases hc : i * w + w ≤ row.length
  · rw [if_neg (not_lt.mpr hc), if_pos hc]
  · rw [if_pos (not_le.mp hc), if_neg hc]

/-- Ceiling-count facts for an overflowing row: the frame count
satisfies `(c-1)·w < L ≤ c·w` and is at least 1. -/
theorem page_count_facts {w L : Nat} (hw : 1 ≤ w) (hL : w < L) :
    L ≤ (L + w - 1) / w * w ∧ ((L + w - 1) / w - 1) * w < L ∧ 1 ≤ (L + w - 1) / w := by
  obtain ⟨m, hm, hsum⟩ :
      ∃ m, m = w * ((L + w - 1) / w) ∧ m + (L + w - 1) % w = L + w - 1 :=
    ⟨_, rfl, Nat.div_add_mod _ _⟩
  have hr : (L + w - 1) % w < w := Nat.mod_lt _ (by omega)
  have e1 : (L + w - 1) / w * w = m := by rw [hm, Nat.mul_comm]
  have e2 : ((L + w - 1) / w - 1) * w = m - w := by
    rw [Nat.sub_mul, Nat.one_mul, e1]
  have e3 : 1 ≤ (L + w - 1) / w := by
    rw [Nat.le_div_iff_mul_le (by omega : 0 < w), Nat.one_mul]
    omega
  rw [e1, e2]
  exact ⟨by omega, by omega, e3⟩

/-- Every page frame of an overflowing row is exactly window sized. -/
theorem page_frame_length {w : Nat} {row : String} (hL : w < row.length) :
    ∀ f ∈ page_row_frames w row, f.length = w := by
  rw [page_row_frames_eq hL]
  intro f hf
  obtain ⟨i, hi, rfl⟩ := List.mem_map.mp hf
  rw [length_ljust, length_pySlice, ← length_eq_data_length]
  have hsucc : (i + 1) * w = i * w + w := by ring
  rw [hsucc]
  set a := i * w with ha
  omega

/-- Concatenating `k` successive full window slices of a list recovers
its first `k·w` elements. -/
theorem flatten_take_slices (l : List Char) (w : Nat) :
    ∀ k : Nat, k * w ≤ l.length →
      ((List.range k).map (fun i => (l.drop (i * w)).take w)).flatten = l.take (k * w)
  | 0, _ => by simp
  | k + 1, h => by
    have hstep : k * w ≤ (k + 1) * w := mul_le_mul_right' (by omega) w
    have hk : k * w ≤ l.length := le_trans hstep h
    rw [List.range_succ, List.map_append, List.flatten_append,
      flatten_take_slices l w k hk]
    have hsucc : (k + 1) * w = k * w + w := by ring
    rw [hsucc, List.take_add]
    simp

/-- C2: for an overflowing row with window width at least 1,
`page_area` precomputes exactly `ceil(L/W) = (L+W-1)/W` frames (the
count `c` satisfies `(c-1)·W < L ≤ c·W`), frame `i` being the slice
`[i·W, min((i+1)·W, L))` right-padded with spaces to exactly `W`
characters, and concatenating all non-final frames recovers exactly
the first `(c-1)·W` characters of the row; a row that fits the window
yields exactly one frame equal to the unpadded row. -/
theorem page_area_frames_spec (row : String) (w : Nat) (hw : 1 ≤ w) :
    (w < row.length →
      (page_row_frames w row).length = (row.length + w - 1) / w ∧
      row.length ≤ (page_row_frames w row).length * w ∧
      ((page_row_frames w row).length - 1) * w < row.length ∧
      page_row_frames w row =
        (List.range ((page_row_frames w row).length)).map (fun i =>
          ljust (pySlice row (i * w) (min ((i + 1) * w) row.length)) w) ∧
      String.join ((page_row_frames w row).take ((page_row_frames w row).length - 1)) =
        pySlice row 0 (((page_row_frames w row).length - 1) * w)) ∧
    (row.length ≤ w → page_row_frames w row = [row]) := by
  refine ⟨fun hL => ?_, page_row_frames_short⟩
  have hlen : (page_row_frames w row).length = (row.length + w - 1) / w := by
    rw [page_row_frames_eq hL, List.length_map, List.length_range]
  obtain ⟨hc1, hc2, hc3⟩ := page_count_facts hw hL
  refine ⟨hlen, ?_, ?_, ?_, ?_⟩
  · rw [hlen]
    exact hc1
  · rw [hlen]
    exact hc2
  · rw [hlen]
    exact page_row_frames_eq hL
  · rw [hlen, page_row_frames_eq hL, ← List.map_take, List.take_range,
      Nat.min_eq_left (by omega)]
    apply str_eq_of_data
    rw [join_data, List.map_map, data_pySlice]
    have hmap : (List.range ((row.length + w - 1) / w - 1)).map
        (String.data ∘ fun i =>
          ljust (pySlice row (i * w) (min ((i + 1) * w) row.length)) w) =
        (List.range ((row.length + w - 1) / w - 1)).map
          (fun i => (row.data.drop (i * w)).take w) := by
      apply List.map_congr_left
      intro i hi
      have hi2 : i < (row.length + w - 1) / w - 1 := List.mem_range.mp hi
      have hle : (i + 1) * w ≤ ((row.length + w - 1) / w - 1) * w :=
        mul_le_mul_right' (by omega) w
      have hsucc : (i + 1) * w = i * w + w := by ring
      have h2 : i * w + w ≤ row.length := by
        rw [← hsucc]
        exact le_of_lt (lt_of_le_of_lt hle hc2)
      show (ljust (pySlice row (i * w) (min ((i + 1) * w) row.length)) w).data =
        (row.data.drop (i * w)).take w
      have hminb : min ((i + 1) * w) row.length = i * w + w := by
        rw [hsucc]
        exact Nat.min_eq_left h2
      rw [hminb, data_ljust, data_pySlice, length_pySlice, ← length_eq_data_length]
      set a := i * w with ha
      have e1 : a + w - a = w := by omega
      rw [e1]
      have e2 : min w (row.length - a) = w := by omega
      rw [e2, Nat.sub_self, List.replicate_zero, List.append_nil]
    rw [hmap, flatten_take_slices row.data w ((row.length + w - 1) / w - 1)
      (by rw [← length_eq_data_length]; exact le_of_lt hc2)]
    simp

/-- Witness for C2 on the spec scenario: destination `Shibuya`,
window width 4, frames `Shib` and `uya␣`. -/
theorem page_area_frames_spec_witness :
    (1 ≤ 4 ∧ 4 < ("Shibuya" : String).length ∧
      page_row_frames 4 "Shibuya" = ["Shib", "uya "]) ∧
    ("Shibuya" : String).length ≤ (page_row_frames 4 "Shibuya").length * 4 :=
  ⟨⟨by decide, by decide, by decide⟩,
    (((page_area_frames_spec "Shibuya" 4 (by decide)).1 (by decide)).2.1 : _)⟩

/-! ### Frame width invariant -/

/-- C5 (corrected): every precomputed frame has length exactly the
window width whenever the row is at least window sized — for paging by
padding, for scrolling by width slicing — while a row strictly shorter
than the window yields, in both styles, one single unpadded frame
shorter than the window: the short-frame exception holds for paging
exactly as it does for scrolling. -/
theorem frame_width_invariant (row : String) (w : Nat) :
    (w ≤ row.length →
      (∀ f ∈ page_row_frames w row, f.length = w) ∧
      (∀ f ∈ scroll_row_frames w row, f.length = w)) ∧
    (row.length < w →
      page_row_frames w row = [row] ∧ scroll_row_frames w row = [row]) := by
  refine ⟨fun hge => ?_,
    fun hlt => ⟨page_row_frames_short (by omega), scroll_row_frames_short (by omega)⟩⟩
  rcases eq_or_lt_of_le hge with heq | hlt2
  · constructor
    · rw [page_row_frames_short (by omega)]
      intro f hf
      rw [List.mem_singleton.mp hf]
      omega
    · rw [scroll_row_frames_short (by omega)]
      intro f hf
      rw [List.mem_singleton.mp hf]
      omega
  · exact ⟨page_frame_length hlt2, scroll_frame_length hlt2⟩

/-- Witness for C5 (corrected) at `Shibuya` with window width 4. -/
theorem frame_width_invariant_witness :
    (4 ≤ ("Shibuya" : String).length) ∧
    (∀ f ∈ page_row_frames 4 "Shibuya", f.length = 4) ∧
    (∀ f ∈ scroll_row_frames 4 "Shibuya", f.length = 4) :=
  ⟨by decide, ((frame_width_invariant "Shibuya" 4).1 (by decide)).1,
    ((frame_width_invariant "Shibuya" 4).1 (by decide)).2⟩

/-- Counterexample to C5 as stated: paging a 2-character row in a
4-character window yields the single unpadded frame `ab` of length 2,
not a frame padded to exactly 4 characters. -/
theorem frame_width_counterexample :
    page_row_frames 4 "ab" = ["ab"] ∧ ("ab" : String).length = 2 := by
  decide

/-! ### Animation loop theorems -/

/-- Successor step of remainder by a positive modulus. -/
theorem succ_mod_char {n : Nat} (hn : 0 < n) (s : Nat) :
    (s + 1) % n = if s % n + 1 = n then 0 else s % n + 1 := by
  have h1 : n * (s / n) + s % n = s := Nat.div_add_mod s n
  by_cases h : s % n + 1 = n
  · have h2 : s + 1 = n * (s / n + 1) := by rw [Nat.mul_add, Nat.mul_one]; omega
    rw [if_pos h, h2, Nat.mul_mod_right]
  · have hlt : s % n + 1 < n :=
      lt_of_le_of_ne (Nat.succ_le_of_lt (Nat.mod_lt s hn)) h
    have h2 : s + 1 = n * (s / n) + (s % n + 1) := by omega
    rw [if_neg h, h2, Nat.mul_add_mod, Nat.mod_eq_of_lt hlt]

/-- Closed form of the per-row cursor after at least one tick. -/
theorem row_pos_succ {n : Nat} (hn : 0 < n) : ∀ t, row_pos n (t + 1) = t % n + 1
  | 0 => by
    simp [row_pos, anim_index, ite_self]
  | t + 1 => by
    have hmod : t % n < n := Nat.mod_lt t hn
    have hstep : row_pos n (t + 1 + 1) = anim_index n (row_pos n (t + 1)) + 1 := rfl
    rw [hstep, row_pos_succ hn t]
    simp only [anim_index]
    rw [succ_mod_char hn t]
    by_cases h : t % n + 1 = n
    · rw [if_pos (by omega), if_pos h]
    · rw [if_neg (by omega), if_neg h]

/-- The index a row reads at tick `t` is `t` modulo its frame count,
and in particular in bounds. -/
theorem anim_index_row_pos {n : Nat} (hn : 0 < n) (t : Nat) :
    anim_index n (row_pos n t) = t % n ∧ t % n < n := by
  refine ⟨?_, Nat.mod_lt t hn⟩
  cases t with
  | zero => simp [row_pos, anim_index, ite_self, Nat.zero_mod]
  | succ s =>
    have hmod : s % n < n := Nat.mod_lt s hn
    rw [row_pos_succ hn s]
    simp only [anim_index]
    rw [succ_mod_char hn s]
    by_cases h : s % n + 1 = n
    · rw [if_pos (by omega), if_pos h]
    · rw [if_neg (by omega), if_neg h]

/-- Zipping a list with its own image acts pointwise. -/
theorem zipWith_map_self {α β γ : Type} (f : α → β → γ) (g : α → β) :
    ∀ l : List α, List.zipWith f l (l.map g) = l.map (fun a => f a (g a))
  | [] => rfl
  | a :: as => by simp [zipWith_map_self f g as]

/-- The cursor list evolves as the per-row cursor on every row. -/
theorem anim_positions_eq (counts : List Nat) :
    ∀ t, anim_positions counts t = counts.map (fun n => row_pos n t)
  | 0 => by simp [anim_positions, row_pos]
  | t + 1 => by
    simp only [anim_positions, anim_positions_eq counts t, anim_step]
    rw [zipWith_map_self]
    rfl

/-- Building a `Forall₂` against a map of the same list. -/
theorem forall2_map_self {α β : Type} (g : α → β) (R : β → α → Prop) :
    ∀ l : List α, (∀ a ∈ l, R (g a) a) → List.Forall₂ R (l.map g) l
  | [], _ => List.Forall₂.nil
  | a :: as, h =>
    List.Forall₂.cons (h a (List.mem_cons_self a as))
      (forall2_map_self g R as fun x hx => h x (List.mem_cons_of_mem a hx))

/-- On counts that are all positive, every tick reads index
`t mod count` on every row, strictly below the count. -/
theorem anim_loop_char (counts : List Nat) (hc : ∀ n ∈ counts, 1 ≤ n) (t : Nat) :
    List.Forall₂ (fun i n => i = t % n ∧ i < n)
      (anim_indices counts (anim_positions counts t)) counts := by
  rw [anim_positions_eq counts t]
  simp only [anim_indices]
  rw [zipWith_map_self]
  apply forall2_map_self
  intro n hn
  have h1 := anim_index_row_pos (hc n hn) t
  exact ⟨h1.1, by rw [h1.1]; exact h1.2⟩

/-- Scroll frames are never empty, whatever the width and row. -/
theorem scroll_row_frames_ne_nil (w : Nat) (row : String) :
    scroll_row_frames w row ≠ [] := by
  by_cases h : row.length ≤ w
  · rw [scroll_row_frames_short h]
    simp
  · rw [scroll_row_frames_eq (by omega)]
    intro hnil
    have hlen := congrArg List.length hnil
    simp at hlen

/-- Page frames are never empty for a positive width. -/
theorem page_row_frames_ne_nil {w : Nat} (hw : 1 ≤ w) (row : String) :
    page_row_frames w row ≠ [] := by
  by_cases h : row.length ≤ w
  · rw [page_row_frames_short h]
    simp
  · rw [page_row_frames_eq (by omega)]
    intro hnil
    have hlen := congrArg List.length hnil
    simp at hlen
    have := (page_count_facts hw (by omega : w < row.length)).2.2
    omega

/-- C10: with a positive window width, both animation styles give every
row of the input — empty rows included — a non-empty frame list, and on
every 0-indexed tick `t` the index each row reads (after the
reset-to-0 guard) is exactly `t mod count` for that row and strictly
below that row frame count, so the lookup never goes out of bounds and
replay is cyclic per row. -/
theorem animation_loop_safe (w : Nat) (data : List String) (hw : 1 ≤ w) :
    (∀ fl ∈ scroll_area_frames w data, fl ≠ []) ∧
    (∀ fl ∈ page_area_frames w data, fl ≠ []) ∧
    (∀ t, List.Forall₂ (fun i n => i = t % n ∧ i < n)
      (anim_indices ((scroll_area_frames w data).map List.length)
        (anim_positions ((scroll_area_frames w data).map List.length) t))
      ((scroll_area_frames w data).map List.length)) ∧
    (∀ t, List.Forall₂ (fun i n => i = t % n ∧ i < n)
      (anim_indices ((page_area_frames w data).map List.length)
        (anim_positions ((page_area_frames w data).map List.length) t))
      ((page_area_frames w data).map List.length)) := by
  have hs : ∀ fl ∈ scroll_area_frames w data, fl ≠ [] := by
    intro fl hfl
    obtain ⟨row, _, rfl⟩ := List.mem_map.mp hfl
    exact scroll_row_frames_ne_nil w row
  have hp : ∀ fl ∈ page_area_frames w data, fl ≠ [] := by
    intro fl hfl
    obtain ⟨row, _, rfl⟩ := List.mem_map.mp hfl
    exact page_row_frames_ne_nil hw row
  refine ⟨hs, hp, fun t => anim_loop_char _ ?_ t, fun t => anim_loop_char _ ?_ t⟩
  · intro n hn
    obtain ⟨fl, hfl, rfl⟩ := List.mem_map.mp hn
    exact List.length_pos.mpr (hs fl hfl)
  · intro n hn
    obtain ⟨fl, hfl, rfl⟩ := List.mem_map.mp hn
    exact List.length_pos.mpr (hp fl hfl)

/-- Witness for C10 on an empty row together with an overflowing row at
window width 4. -/
theorem animation_loop_safe_witness :
    (1 ≤ 4) ∧
    (∀ fl ∈ scroll_area_frames 4 ["", "Shibuya"], fl ≠ []) ∧
    (∀ fl ∈ page_area_frames 4 ["", "Shibuya"], fl ≠ []) :=
  ⟨by decide, (animation_loop_safe 4 ["", "Shibuya"] (by decide)).1,
    (animation_loop_safe 4 ["", "Shibuya"] (by decide)).2.1⟩

end OdptBoard
